import Mathlib

/-!
Shallow embedding of `S3FileManager` (examples/s3_file_manager.py), covering
the directory synchronizer: key construction, the remote relative-path
derivation, the upload/delete plan of `sync_directory`, its execution trace,
and `get_file_size`.
-/

namespace S3Sync

/-- Timestamps (`st_mtime`, `last_modified.timestamp()`). The code only ever
compares them with `>`, so an integer carrier is faithful for the claims. -/
abbrev Mtime := Int

/-- Payload of a caught `botocore` `ClientError`. -/
abbrev ClientErr := String

/-- Python dict lookup `m[k]` (and membership `k in m`, via `Option.isSome`)
over an association list ordered by dict insertion order. -/
def dictGet : List (String × Mtime) → String → Option Mtime
  | [], _ => none
  | (k', v) :: t, k => if k = k' then some v else dictGet t k

/-- Python dict update semantics: an existing key keeps its position and takes
the new value; a new key is appended. -/
def dictInsert (m : List (String × Mtime)) (k : String) (v : Mtime) :
    List (String × Mtime) :=
  if (dictGet m k).isSome then m.map (fun p => if p.1 = k then (p.1, v) else p)
  else m ++ [(k, v)]

/-- Build a Python dict from a sequence of key/value pairs, as a dict
comprehension does (later pairs overwrite earlier values). -/
def dictOfList (l : List (String × Mtime)) : List (String × Mtime) :=
  l.foldl (fun m kv => dictInsert m kv.1 kv.2) []

/-- The character substitution performed by `.replace('\\', '/')`. -/
def replBackslash (c : Char) : Char := if c = '\\' then '/' else c

/-- Python `str.lstrip('/')`: remove every leading `'/'` character. -/
def lstripSlash (l : List Char) : List Char := l.dropWhile (fun c => c == '/')

/-- Remote key built at s3_file_manager.py lines 22, 67 and 78:
the value of the expression
`(s3_prefix + "/" + rel).replace('\\', '/').lstrip('/')`, over char lists. -/
def s3KeyL (pfx rel : List Char) : List Char :=
  lstripSlash ((pfx ++ '/' :: rel).map replBackslash)

/-- String form of `s3KeyL`. -/
def s3Key (pfx rel : String) : String := ⟨s3KeyL pfx.toList rel.toList⟩

/-- Collapse every run of consecutive `'/'` characters to a single `'/'`. -/
def collapseSlashes : List Char → List Char
  | [] => []
  | [c] => [c]
  | a :: b :: t =>
    if a == '/' && b == '/' then collapseSlashes (b :: t)
    else a :: collapseSlashes (b :: t)

/-- Modelled from the spec: the key form the spec asserts, namely
the concatenation of the key-space root, `"/"` and the relative path, with
duplicate slashes collapsed and no leading slash. -/
def s3KeySpecL (pfx rel : List Char) : List Char :=
  lstripSlash (collapseSlashes (pfx ++ '/' :: rel))

/-- String form of `s3KeySpecL`. -/
def s3KeySpec (pfx rel : String) : String := ⟨s3KeySpecL pfx.toList rel.toList⟩

/-- Boolean starts-with test on character lists. -/
def leadsWith : List Char → List Char → Bool
  | [], _ => true
  | _ :: _, [] => false
  | a :: as, b :: bs => a == b && leadsWith as bs

/-- Does `pat` occur contiguously anywhere inside `s`? -/
def occursIn (pat : List Char) : List Char → Bool
  | [] => leadsWith pat []
  | c :: t => leadsWith pat (c :: t) || occursIn pat t

/-- Left-to-right scan of Python `str.replace(pat, '')` for non-empty `pat`:
wherever `pat` begins, drop it and continue after it. `fuel` bounds the
recursion; one unit is spent per consumed character, so `s.length` suffices. -/
def removeAllAux (pat : List Char) : Nat → List Char → List Char
  | 0, s => s
  | _ + 1, [] => []
  | fuel + 1, c :: rest =>
    if leadsWith pat (c :: rest) then removeAllAux pat fuel ((c :: rest).drop pat.length)
    else c :: removeAllAux pat fuel rest

/-- Python `key.replace(pat, '')`: every occurrence of `pat` removed (the
identity when `pat` is empty, as in Python). -/
def removeAll (pat s : List Char) : List Char :=
  if pat.isEmpty then s else removeAllAux pat s.length s

/-- Remote relative path derived at s3_file_manager.py lines 42 and 63:
`obj.key.replace(s3_prefix, '').lstrip('/')`, over character lists. -/
def relOfL (pfx key : List Char) : List Char := lstripSlash (removeAll pfx key)

/-- String form of `relOfL`. -/
def relOf (pfx key : String) : String := ⟨relOfL pfx.toList key.toList⟩

/-- Modelled from the spec: the derivation the claim asserts — the key with the
leading occurrence of `pfx` removed from its front (only there) and exactly one
leading `'/'` stripped. -/
def stripFrontOnceL (pfx key : List Char) : List Char :=
  let k := if leadsWith pfx key then key.drop pfx.length else key
  match k with
  | '/' :: t => t
  | k' => k'

/-- Upload condition of s3_file_manager.py line 68:
`local_file not in s3_objects or local_mtime > s3_objects[local_file]`. -/
def shouldUpload (s3Objects : List (String × Mtime)) (f : String) (m : Mtime) : Bool :=
  match dictGet s3Objects f with
  | none => true
  | some rm => decide (rm < m)

/-- Pairs (local relative path, remote key) whose upload `sync_directory`
attempts (lines 66-73), in loop order. -/
def uploadsOf (localFiles s3Objects : List (String × Mtime)) (pfx : String) :
    List (String × String) :=
  localFiles.filterMap fun fm =>
    if shouldUpload s3Objects fm.1 fm.2 then some (fm.1, s3Key pfx fm.1) else none

/-- Remote keys whose deletion `sync_directory` attempts (lines 75-83), in loop
order; empty when the `delete` flag is off. -/
def deletesOf (localFiles s3Objects : List (String × Mtime)) (pfx : String) (del : Bool) :
    List String :=
  if del then
    s3Objects.filterMap fun rt =>
      if (dictGet localFiles rt.1).isSome then none else some (s3Key pfx rt.1)
  else []

/-- A backend action issued by `sync_directory`. -/
inductive SyncAction
  | upload (localFile key : String)
  | delete (key : String)
deriving DecidableEq

/-- The sequence of backend actions one sync pass issues: the upload loop runs
to completion before the delete loop starts (lines 66-73 precede 75-83). -/
def syncTrace (localFiles s3Objects : List (String × Mtime)) (pfx : String) (del : Bool) :
    List SyncAction :=
  (uploadsOf localFiles s3Objects pfx).map (fun fk => SyncAction.upload fk.1 fk.2)
    ++ (deletesOf localFiles s3Objects pfx del).map SyncAction.delete

/-- Observable events of one sync pass: the per-action prints (`Synced`,
`Error syncing <file>`, `Deleted`, `Error deleting`) and the outer
`Error syncing:` print of the `except ClientError` handler. -/
inductive SyncEvent
  | uploadOk (localFile key : String)
  | uploadErr (localFile key : String) (e : ClientErr)
  | deleteOk (key : String)
  | deleteErr (key : String) (e : ClientErr)
  | syncErr (e : ClientErr)
deriving DecidableEq

/-- Event recorded for one attempted upload: the inner `try/except ClientError`
of lines 69-73 converts a failure into a print and continues. -/
def uploadEventOf (f k : String) : Except ClientErr Unit → SyncEvent
  | .ok _ => .uploadOk f k
  | .error e => .uploadErr f k e

/-- Event recorded for one attempted delete (inner `try/except` of 79-83). -/
def deleteEventOf (k : String) : Except ClientErr Unit → SyncEvent
  | .ok _ => .deleteOk k
  | .error e => .deleteErr k e

/-- Execution of a computed plan against backend upload/delete behaviours
`upl` and `delB` (each returns `ok` or the `ClientError` it raises). -/
def execEvents (ups : List (String × String)) (dels : List String)
    (upl delB : String → Except ClientErr Unit) : List SyncEvent :=
  ups.map (fun fk => uploadEventOf fk.1 fk.2 (upl fk.2))
    ++ dels.map (fun k => deleteEventOf k (delB k))

/-- The backend action a `SyncEvent` witnesses an attempt of, if any. -/
def attemptedOf : SyncEvent → Option SyncAction
  | .uploadOk f k => some (.upload f k)
  | .uploadErr f k _ => some (.upload f k)
  | .deleteOk k => some (.delete k)
  | .deleteErr k _ => some (.delete k)
  | .syncErr _ => none

/-- The `s3_objects` dict comprehension of line 63-64, from the raw listing
`(key, mtime)` pairs. -/
def s3ObjectsOf (pfx : String) (objs : List (String × Mtime)) : List (String × Mtime) :=
  dictOfList (objs.map fun kt => (relOf pfx kt.1, kt.2))

/-- `sync_directory` (lines 57-85). `localFiles` is the `local_files` snapshot,
`listing` the outcome of the remote listing call, `upl`/`delB` the backend
behaviour of each upload/delete call. The first component is what the function
lets escape to the caller: the outer `except ClientError` handler turns a
listing failure into the `Error syncing:` print and a normal `None` return,
so the first component is `ok` in every modelled case. -/
def sync_directory (localFiles : List (String × Mtime)) (pfx : String) (del : Bool)
    (listing : Except ClientErr (List (String × Mtime)))
    (upl delB : String → Except ClientErr Unit) :
    Except ClientErr Unit × List SyncEvent :=
  match listing with
  | .error e => (Except.ok (), [SyncEvent.syncErr e])
  | .ok objs =>
    let s3Objects := s3ObjectsOf pfx objs
    (Except.ok (),
      execEvents (uploadsOf localFiles s3Objects pfx)
        (deletesOf localFiles s3Objects pfx del) upl delB)

/-- `get_file_size` (lines 87-93): `head` is the backend behaviour of the
`content_length` attribute load. Returns the value returned to the caller and
the printed lines. -/
def get_file_size (head : String → Except ClientErr Nat) (key : String) :
    Option Nat × List String :=
  match head key with
  | .ok n => (some n, [])
  | .error e => (none, ["Error getting file size: " ++ e])

/-- Kind of a filesystem node yielded by `Path.rglob('*')`. -/
inductive FsKind
  | file
  | dir
  | symlinkToFile
  | symlinkToDir
  | symlinkBroken
deriving DecidableEq

/-- Python `Path.is_file()`: true for a regular file, and for a symbolic link
that points to a regular file (the call follows symlinks). -/
def is_file : FsKind → Bool
  | .file => true
  | .symlinkToFile => true
  | _ => false

/-- POSIX `str(path.relative_to(root))`: components joined with `'/'`. -/
def joinPosix (parts : List String) : String := String.intercalate "/" parts

/-- The local snapshot of lines 59-60 (and the walk of `upload_directory`,
lines 19-21): every node yielded by the walk for which `is_file` holds becomes
an entry mapping its relative path to its mtime. The walk result is the `tree`
argument: relative component paths with their node kinds. -/
def scanLocal (tree : List (List String × FsKind)) (mtime : List String → Mtime) :
    List (String × Mtime) :=
  tree.filterMap fun pk =>
    if is_file pk.2 then some (joinPosix pk.1, mtime pk.1) else none

/-- A relative path that contains no backslash and does not start with a
slash — the shape every path produced by a POSIX-safe walk has, except for
files whose names themselves contain backslash characters. -/
def cleanRel (l : List Char) : Bool :=
  l.all (fun c => c != '\\') && !(leadsWith ['/'] l)

/-! Helper lemmas shared by the claim theorems. -/

theorem dictGet_eq_none_not_mem :
    ∀ (l : List (String × Mtime)) (k : String) (v : Mtime),
      dictGet l k = none → (k, v) ∉ l
  | [], _, _, _ => by simp
  | (k', v') :: t, k, v, h => by
    simp only [dictGet] at h
    by_cases hk : k = k'
    · simp [hk] at h
    · intro hmem
      rcases List.mem_cons.1 hmem with h1 | h1
      · exact hk (congrArg Prod.fst h1)
      · exact dictGet_eq_none_not_mem t k v (by simpa [hk] using h) h1

theorem fst_nodup_val_eq :
    ∀ (l : List (String × Mtime)) (a : String) (b c : Mtime),
      (l.map Prod.fst).Nodup → (a, b) ∈ l → (a, c) ∈ l → b = c
  | [], _, _, _, _, hb, _ => by simp at hb
  | (k, v) :: t, a, b, c, hnd, hb, hc => by
    rw [List.map_cons, List.nodup_cons] at hnd
    rcases List.mem_cons.1 hb with h1 | h1 <;> rcases List.mem_cons.1 hc with h2 | h2
    · cases h1
      injection h2 with _ h2b
      exact h2b.symm
    · cases h1
      exact absurd (List.mem_map_of_mem Prod.fst h2) hnd.1
    · cases h2
      exact absurd (List.mem_map_of_mem Prod.fst h1) hnd.1
    · exact fst_nodup_val_eq t a b c hnd.2 h1 h2

theorem leadsWith_append_self : ∀ (l t : List Char), leadsWith l (l ++ t) = true
  | [], _ => rfl
  | a :: as, t => by simp [leadsWith, leadsWith_append_self as t]

theorem leadsWith_slash_false {c : Char} {t : List Char}
    (h : leadsWith ['/'] (c :: t) = false) : c ≠ '/' := by
  simp [leadsWith] at h
  exact fun hc => h (hc ▸ rfl)

theorem lstripSlash_of_no_lead (l : List Char) (h : leadsWith ['/'] l = false) :
    lstripSlash l = l := by
  cases l with
  | nil => rfl
  | cons c t =>
    have hc : c ≠ '/' := leadsWith_slash_false h
    simp [lstripSlash, List.dropWhile_cons, hc]

theorem lstripSlash_cons_slash (l : List Char) :
    lstripSlash ('/' :: l) = lstripSlash l := by
  simp [lstripSlash, List.dropWhile_cons]

theorem lstripSlash_split (l : List Char) :
    ∃ n, l = List.replicate n '/' ++ lstripSlash l := by
  refine ⟨(l.takeWhile (fun c => c == '/')).length, ?_⟩
  conv_lhs => rw [← List.takeWhile_append_dropWhile (p := fun c => c == '/') (l := l)]
  rw [lstripSlash]
  congr 1
  rw [List.eq_replicate_length]
  intro b hb
  simpa using List.mem_takeWhile_imp hb

theorem head_lstripSlash_ne (l : List Char) (c : Char)
    (h : (lstripSlash l).head? = some c) : c ≠ '/' := by
  induction l with
  | nil => simp [lstripSlash] at h
  | cons a t ih =>
    by_cases ha : a = '/'
    · subst ha
      exact ih (by rwa [lstripSlash_cons_slash] at h)
    · rw [lstripSlash_of_no_lead (a :: t) (by simp [leadsWith]; exact Ne.symm ha)] at h
      simp at h
      exact h ▸ ha

theorem lstrip_append_inj :
    ∀ (q r1 r2 : List Char), leadsWith ['/'] r1 = false → leadsWith ['/'] r2 = false →
      lstripSlash (q ++ '/' :: r1) = lstripSlash (q ++ '/' :: r2) → r1 = r2
  | [], r1, r2, h1, h2, heq => by
    rw [List.nil_append, List.nil_append, lstripSlash_cons_slash, lstripSlash_cons_slash,
      lstripSlash_of_no_lead r1 h1, lstripSlash_of_no_lead r2 h2] at heq
    exact heq
  | q0 :: q, r1, r2, h1, h2, heq => by
    by_cases hq : q0 = '/'
    · subst hq
      rw [List.cons_append, List.cons_append, lstripSlash_cons_slash,
        lstripSlash_cons_slash] at heq
      exact lstrip_append_inj q r1 r2 h1 h2 heq
    · have hlead : ∀ r : List Char, leadsWith ['/'] (q0 :: (q ++ '/' :: r)) = false := by
        intro r
        simp [leadsWith]
        exact Ne.symm hq
      rw [List.cons_append, List.cons_append, lstripSlash_of_no_lead _ (hlead r1),
        lstripSlash_of_no_lead _ (hlead r2)] at heq
      simpa using heq

theorem map_repl_of_no_backslash (l : List Char) (h : l.all (fun c => c != '\\') = true) :
    l.map replBackslash = l := by
  induction l with
  | nil => rfl
  | cons c t ih =>
    rw [List.all_cons, Bool.and_eq_true] at h
    have hc : c ≠ '\\' := by simpa using h.1
    simp [replBackslash, hc, ih h.2]

theorem cleanRel_split {l : List Char} (h : cleanRel l = true) :
    l.all (fun c => c != '\\') = true ∧ leadsWith ['/'] l = false := by
  rw [cleanRel, Bool.and_eq_true, Bool.not_eq_true'] at h
  exact h

theorem s3KeyL_eq_of_clean (pfx rel : List Char) (h : cleanRel rel = true) :
    s3KeyL pfx rel = lstripSlash (pfx.map replBackslash ++ '/' :: rel) := by
  rw [s3KeyL, List.map_append, List.map_cons,
    map_repl_of_no_backslash rel (cleanRel_split h).1]
  rfl

theorem s3KeyL_inj_clean (pfx r1 r2 : List Char) (h1 : cleanRel r1 = true)
    (h2 : cleanRel r2 = true) (heq : s3KeyL pfx r1 = s3KeyL pfx r2) : r1 = r2 := by
  rw [s3KeyL_eq_of_clean pfx r1 h1, s3KeyL_eq_of_clean pfx r2 h2] at heq
  exact lstrip_append_inj (pfx.map replBackslash) r1 r2
    (cleanRel_split h1).2 (cleanRel_split h2).2 heq

theorem string_toList_inj {s t : String} (h : s.toList = t.toList) : s = t := by
  cases s
  cases t
  exact congrArg String.mk h

theorem s3Key_inj_clean (pfx r1 r2 : String) (h1 : cleanRel r1.toList = true)
    (h2 : cleanRel r2.toList = true) (heq : s3Key pfx r1 = s3Key pfx r2) : r1 = r2 := by
  have hdata : s3KeyL pfx.toList r1.toList = s3KeyL pfx.toList r2.toList :=
    congrArg String.data heq
  exact string_toList_inj (s3KeyL_inj_clean pfx.toList r1.toList r2.toList h1 h2 hdata)

theorem removeAllAux_of_not_occurs (pat : List Char) :
    ∀ (l : List Char) (fuel : Nat), occursIn pat l = false → removeAllAux pat fuel l = l
  | [], 0, _ => rfl
  | [], _ + 1, _ => rfl
  | _ :: _, 0, _ => rfl
  | c :: t, fuel + 1, h => by
    rw [occursIn, Bool.or_eq_false_iff] at h
    rw [removeAllAux, if_neg (by simp [h.1])]
    rw [removeAllAux_of_not_occurs pat t fuel h.2]

theorem removeAll_of_front (pat rest : List Char) (hne : pat ≠ [])
    (h : occursIn pat rest = false) : removeAll pat (pat ++ rest) = rest := by
  obtain ⟨p, ps, rfl⟩ : ∃ p ps, pat = p :: ps := by
    cases pat with
    | nil => exact absurd rfl hne
    | cons p ps => exact ⟨p, ps, rfl⟩
  rw [removeAll, if_neg (by simp)]
  have hlen : ((p :: ps) ++ rest).length = (ps ++ rest).length + 1 := by simp
  rw [hlen, List.cons_append]
  simp only [removeAllAux]
  rw [if_pos (by simpa using leadsWith_append_self (p :: ps) rest)]
  rw [← List.cons_append, List.drop_left]
  exact removeAllAux_of_not_occurs (p :: ps) rest (ps ++ rest).length h

/-- C1: for every entry (path, localMtime) of the local snapshot, an upload of
that path is scheduled by `sync_directory` iff the path is absent from the
remote snapshot or its local mtime is strictly greater than the remote mtime;
in particular an equal mtime schedules no upload. -/
theorem upload_condition (localFiles s3Objects : List (String × Mtime)) (pfx : String)
    (f : String) (m : Mtime) (hnd : (localFiles.map Prod.fst).Nodup)
    (hmem : (f, m) ∈ localFiles) :
    ((f, s3Key pfx f) ∈ uploadsOf localFiles s3Objects pfx ↔
      dictGet s3Objects f = none ∨ ∃ rm, dictGet s3Objects f = some rm ∧ rm < m) ∧
    (dictGet s3Objects f = some m →
      (f, s3Key pfx f) ∉ uploadsOf localFiles s3Objects pfx) := by
  have hiff : (f, s3Key pfx f) ∈ uploadsOf localFiles s3Objects pfx ↔
      dictGet s3Objects f = none ∨ ∃ rm, dictGet s3Objects f = some rm ∧ rm < m := by
    constructor
    · intro hup
      rcases List.mem_filterMap.1 hup with ⟨⟨f', m'⟩, hmem', heq⟩
      by_cases hs : shouldUpload s3Objects f' m' = true
      · rw [if_pos hs] at heq
        have hf : f' = f := congrArg Prod.fst (Option.some.inj heq)
        subst hf
        have hm : m' = m := fst_nodup_val_eq localFiles f' m' m hnd hmem' hmem
        subst hm
        rw [shouldUpload] at hs
        rcases hdg : dictGet s3Objects f' with _ | rm
        · exact Or.inl rfl
        · rw [hdg] at hs
          exact Or.inr ⟨rm, rfl, of_decide_eq_true hs⟩
      · rw [if_neg hs] at heq
        exact absurd heq (by simp)
    · intro hdisj
      apply List.mem_filterMap.2
      refine ⟨(f, m), hmem, ?_⟩
      have hs : shouldUpload s3Objects f m = true := by
        rw [shouldUpload]
        rcases hdisj with hnone | ⟨rm, hsome, hlt⟩
        · rw [hnone]
        · rw [hsome]
          exact decide_eq_true hlt
      rw [if_pos hs]
  refine ⟨hiff, fun hsome hup => ?_⟩
  rcases hiff.1 hup with hnone | ⟨rm, hsome', hlt⟩
  · rw [hsome] at hnone
    exact Option.noConfusion hnone
  · rw [hsome] at hsome'
    exact absurd (Option.some.inj hsome' ▸ hlt) (lt_irrefl m)

/-- Witness for C1 at a concrete snapshot with equal mtimes. -/
theorem upload_condition_w :
    ((("a", s3Key "p" "a") ∈ uploadsOf [("a", 5)] [("a", 5)] "p" ↔
      dictGet [("a", 5)] "a" = none ∨ ∃ rm, dictGet [("a", 5)] "a" = some rm ∧ rm < 5) ∧
     (dictGet [("a", 5)] "a" = some 5 →
      ("a", s3Key "p" "a") ∉ uploadsOf [("a", 5)] [("a", 5)] "p")) :=
  upload_condition [("a", 5)] [("a", 5)] "p" "a" 5 (by decide) (by decide)

/-- C2 counterexample: when the listing call raises a `ClientError`, the
function does not return that error to the caller — the outer handler catches
it and the call returns normally. -/
theorem scan_failure_cex :
    (sync_directory [("a", 1)] "p" true (Except.error "boom")
        (fun _ => Except.ok ()) (fun _ => Except.ok ())).fst ≠ Except.error "boom" := by
  rw [sync_directory]
  exact fun h => Except.noConfusion h

/-- C2 amended: a `ClientError` from the listing call is caught by the outer
handler, which prints `Error syncing:` and returns normally; no upload or
delete action is attempted. -/
theorem scan_failure_amended (localFiles : List (String × Mtime)) (pfx : String)
    (del : Bool) (e : ClientErr) (upl delB : String → Except ClientErr Unit) :
    (sync_directory localFiles pfx del (Except.error e) upl delB).fst = Except.ok () ∧
    (sync_directory localFiles pfx del (Except.error e) upl delB).snd.filterMap
      attemptedOf = [] ∧
    SyncEvent.syncErr e ∈ (sync_directory localFiles pfx del (Except.error e) upl delB).snd := by
  refine ⟨rfl, rfl, ?_⟩
  rw [sync_directory]
  exact List.mem_singleton.2 rfl

/-- C3 counterexample: the produced key is not the spec's collapsed form — a
key-space root ending in a slash yields a duplicate interior slash that the
code keeps. -/
theorem key_collapse_cex : s3Key "p/" "a" ≠ s3KeySpec "p/" "a" := by decide

/-- C3 amended: the produced key is the concatenation (root, "/", relative
path) with every backslash replaced by a slash and all leading slashes — and
only leading ones — removed: the concatenation equals a run of leading slashes
followed by the key, and the key never starts with a slash. -/
theorem key_shape_amended (pfx rel : List Char) :
    ∃ n, (pfx ++ '/' :: rel).map replBackslash =
        List.replicate n '/' ++ s3KeyL pfx rel ∧
      ∀ c, (s3KeyL pfx rel).head? = some c → c ≠ '/' := by
  obtain ⟨n, hn⟩ := lstripSlash_split ((pfx ++ '/' :: rel).map replBackslash)
  exact ⟨n, hn, fun c hc => head_lstripSlash_ne _ c hc⟩

/-- Witness for C3's amended theorem at a concrete root and relative path. -/
theorem key_shape_amended_w :
    ∃ n, ("p".toList ++ '/' :: "a".toList).map replBackslash =
        List.replicate n '/' ++ s3KeyL "p".toList "a".toList ∧
      ∀ c, (s3KeyL "p".toList "a".toList).head? = some c → c ≠ '/' :=
  key_shape_amended "p".toList "a".toList

/-- C4 counterexample: the code removes every occurrence of the key-space root
from the listed key (and strips all leading slashes), not just the one at the
front; on root "p" and key "p/ap" it yields "a", while the claimed derivation
yields "ap". -/
theorem rel_derivation_cex :
    relOfL "p".toList "p/ap".toList ≠ stripFrontOnceL "p".toList "p/ap".toList := by
  decide

/-- C4 amended: the derived relative path is the key with every occurrence of
the root substring removed and then all leading slashes stripped; when the
non-empty root occurs only at the front of the key, the result is the rest of
the key with all its leading slashes removed. -/
theorem rel_derivation_amended (pfx rest : List Char) (hne : pfx ≠ [])
    (hocc : occursIn pfx rest = false) :
    relOfL pfx (pfx ++ rest) = lstripSlash rest := by
  rw [relOfL, removeAll_of_front pfx rest hne hocc]

/-- Witness for C4's amended theorem: root "p", key "p//a" derives "a". -/
theorem rel_derivation_amended_w :
    relOfL ['p'] (['p'] ++ ['/', '/', 'a']) = lstripSlash ['/', '/', 'a'] :=
  rel_derivation_amended ['p'] ['/', '/', 'a'] (by decide) (by decide)

/-- C5 counterexample: two distinct local relative paths — a file literally
named with a backslash, and a nested path — map to the same remote key,
because the key construction replaces backslashes by slashes. -/
theorem key_injective_cex :
    s3Key "" "a\\b" = s3Key "" "a/b" ∧ ("a\\b" : String) ≠ "a/b" := by decide

/-- C5 amended: restricted to relative paths that contain no backslash and do
not start with a slash, the mapping from local relative path to remote key is
injective for every key-space root. -/
theorem key_injective_amended (pfx r1 r2 : String) (h1 : cleanRel r1.toList = true)
    (h2 : cleanRel r2.toList = true) (heq : s3Key pfx r1 = s3Key pfx r2) : r1 = r2 :=
  s3Key_inj_clean pfx r1 r2 h1 h2 heq

/-- Witness for C5's amended theorem at a concrete root and path. -/
theorem key_injective_amended_w :
    cleanRel "a".toList = true ∧ ("a" : String) = "a" :=
  ⟨by decide, key_injective_amended "p" "a" "a" (by decide) (by decide) rfl⟩

/-- C6 counterexample: with a backslash-named local file, the same remote key
is both scheduled for upload and scheduled for deletion in one pass. -/
theorem plan_disjoint_cex :
    "a/b" ∈ (uploadsOf [("a\\b", 5)] [("a/b", 3)] "").map Prod.snd ∧
    "a/b" ∈ deletesOf [("a\\b", 5)] [("a/b", 3)] "" true := by decide

/-- C6 amended: when every path of both snapshots contains no backslash and no
leading slash, the upload key set and the delete key set of one pass are
disjoint. -/
theorem plan_disjoint_amended (localFiles s3Objects : List (String × Mtime)) (pfx : String)
    (del : Bool) (hl : ∀ p ∈ localFiles.map Prod.fst, cleanRel p.toList = true)
    (hr : ∀ p ∈ s3Objects.map Prod.fst, cleanRel p.toList = true) (k : String)
    (hk : k ∈ (uploadsOf localFiles s3Objects pfx).map Prod.snd) :
    k ∉ deletesOf localFiles s3Objects pfx del := by
  intro hkd
  rcases List.mem_map.1 hk with ⟨fk, hup, hsnd⟩
  rcases List.mem_filterMap.1 hup with ⟨⟨f, m⟩, hfm, heq⟩
  by_cases hs : shouldUpload s3Objects f m = true
  · rw [if_pos hs] at heq
    have hfk := Option.some.inj heq
    subst hfk
    rw [deletesOf] at hkd
    split at hkd
    · rcases List.mem_filterMap.1 hkd with ⟨⟨r, t⟩, hrt, heq2⟩
      by_cases hd : (dictGet localFiles r).isSome = true
      · rw [if_pos hd] at heq2
        exact absurd heq2 (by simp)
      · rw [if_neg hd] at heq2
        have hkr : s3Key pfx r = k := Option.some.inj heq2
        have hfr : f = r := s3Key_inj_clean pfx f r
          (hl f (List.mem_map_of_mem Prod.fst hfm))
          (hr r (List.mem_map_of_mem Prod.fst hrt))
          (hsnd.trans hkr.symm)
        have hnone : dictGet localFiles r = none :=
          Option.not_isSome_iff_eq_none.1 hd
        exact dictGet_eq_none_not_mem localFiles r m hnone (hfr ▸ hfm)
    · exact absurd hkd (by simp)
  · rw [if_neg hs] at heq
    exact absurd heq (by simp)

/-- Witness for C6's amended theorem at concrete clean snapshots. -/
theorem plan_disjoint_amended_w :
    "p/a" ∉ deletesOf [("a", 5)] [("b", 3)] "p" true :=
  plan_disjoint_amended [("a", 5)] [("b", 3)] "p" true (by decide) (by decide)
    "p/a" (by decide)

/-- C7: in the action sequence of one sync pass, every upload position is
strictly before every delete position — the upload loop runs to completion
before the delete loop starts. -/
theorem upload_before_delete (localFiles s3Objects : List (String × Mtime)) (pfx : String)
    (del : Bool) (i j : Nat) (f k k' : String)
    (hi : (syncTrace localFiles s3Objects pfx del)[i]? = some (SyncAction.upload f k))
    (hj : (syncTrace localFiles s3Objects pfx del)[j]? = some (SyncAction.delete k')) :
    i < j := by
  rw [syncTrace] at hi hj
  by_cases hiu : i <
      ((uploadsOf localFiles s3Objects pfx).map (fun fk => SyncAction.upload fk.1 fk.2)).length
  · by_cases hju : j <
        ((uploadsOf localFiles s3Objects pfx).map (fun fk => SyncAction.upload fk.1 fk.2)).length
    · exfalso
      rw [List.getElem?_append_left hju, List.getElem?_map] at hj
      rcases ho : (uploadsOf localFiles s3Objects pfx)[j]? with _ | u
      · rw [ho] at hj
        simp at hj
      · rw [ho] at hj
        simp at hj
    · exact lt_of_lt_of_le hiu (le_of_not_lt hju)
  · exfalso
    rw [List.getElem?_append_right (le_of_not_lt hiu), List.getElem?_map] at hi
    rcases ho : (deletesOf localFiles s3Objects pfx del)[i -
        ((uploadsOf localFiles s3Objects pfx).map
          (fun fk => SyncAction.upload fk.1 fk.2)).length]? with _ | d
    · rw [ho] at hi
      simp at hi
    · rw [ho] at hi
      simp at hi

/-- Witness for C7 at a one-upload, one-delete pass. -/
theorem upload_before_delete_w : (0 : Nat) < 1 :=
  upload_before_delete [("a", 1)] [("b", 0)] "" true 0 1 "a" "a" "b"
    (by decide) (by decide)

/-- Every upload event of an execution attempts exactly the planned upload. -/
theorem filterMap_attempted_upload (ups : List (String × String))
    (upl : String → Except ClientErr Unit) :
    (ups.map fun fk => uploadEventOf fk.1 fk.2 (upl fk.2)).filterMap attemptedOf =
      ups.map fun fk => SyncAction.upload fk.1 fk.2 := by
  induction ups with
  | nil => rfl
  | cons hd t ih =>
    have hhd : attemptedOf (uploadEventOf hd.1 hd.2 (upl hd.2)) =
        some (SyncAction.upload hd.1 hd.2) := by
      cases upl hd.2 <;> rfl
    simp only [List.map_cons, List.filterMap_cons, hhd, ih]

/-- Every delete event of an execution attempts exactly the planned delete. -/
theorem filterMap_attempted_delete (dels : List String)
    (delB : String → Except ClientErr Unit) :
    (dels.map fun k => deleteEventOf k (delB k)).filterMap attemptedOf =
      dels.map SyncAction.delete := by
  induction dels with
  | nil => rfl
  | cons hd t ih =>
    have hhd : attemptedOf (deleteEventOf hd (delB hd)) =
        some (SyncAction.delete hd) := by
      cases delB hd <;> rfl
    simp only [List.map_cons, List.filterMap_cons, hhd, ih]

/-- C8: whatever outcome each backend call has — in particular if any subset of
the calls raises a `ClientError` — the sequence of actions the pass attempts is
the full plan: a failing action never prevents the remaining actions from being
attempted. -/
theorem actions_attempted_independently (localFiles : List (String × Mtime)) (pfx : String)
    (del : Bool) (objs : List (String × Mtime)) (upl delB : String → Except ClientErr Unit) :
    (sync_directory localFiles pfx del (Except.ok objs) upl delB).snd.filterMap
      attemptedOf = syncTrace localFiles (s3ObjectsOf pfx objs) pfx del := by
  simp only [sync_directory, execEvents, syncTrace, List.filterMap_append]
  rw [filterMap_attempted_upload, filterMap_attempted_delete]

/-- C9 counterexample: a walk whose only node is a symbolic link that resolves
to a regular file still yields a snapshot entry, because `is_file()` follows
symlinks; the tree contains no node of kind `file`. -/
theorem scan_local_cex :
    scanLocal [(["ln"], FsKind.symlinkToFile)] (fun _ => 7) = [("ln", 7)] ∧
    FsKind.symlinkToFile ≠ FsKind.file := ⟨rfl, by decide⟩

/-- C9 amended: the local snapshot has an entry exactly for every walked node
that is a regular file or a symbolic link resolving to a regular file;
directories and other symlinks are not entries; the entry's path is the
relative component path joined with forward slashes and its mtime the node's
mtime. -/
theorem scan_local_amended (tree : List (List String × FsKind)) (mtime : List String → Mtime)
    (p : String) (m : Mtime) :
    (p, m) ∈ scanLocal tree mtime ↔
      ∃ parts kind, (parts, kind) ∈ tree ∧
        (kind = FsKind.file ∨ kind = FsKind.symlinkToFile) ∧
        p = joinPosix parts ∧ m = mtime parts := by
  rw [scanLocal, List.mem_filterMap]
  constructor
  · rintro ⟨⟨parts, kind⟩, hmem, hsome⟩
    by_cases hk : is_file kind = true
    · rw [if_pos hk] at hsome
      have h1 := Option.some.inj hsome
      refine ⟨parts, kind, hmem, ?_, (congrArg Prod.fst h1).symm,
        (congrArg Prod.snd h1).symm⟩
      cases kind <;> simp_all [is_file]
    · rw [if_neg hk] at hsome
      exact absurd hsome (by simp)
  · rintro ⟨parts, kind, hmem, hkind, rfl, rfl⟩
    refine ⟨(parts, kind), hmem, ?_⟩
    rcases hkind with rfl | rfl <;> rfl

/-- C10: `get_file_size` returns the object's content length when the backend
attribute load succeeds and `None` when it raises a `ClientError`; the error is
consumed (its only trace is the printed message), never propagated. -/
theorem get_file_size_result (head : String → Except ClientErr Nat) (key : String) :
    (get_file_size head key).fst = (head key).toOption ∧
    ((get_file_size head key).fst = none ↔ ∃ e, head key = Except.error e) := by
  cases h : head key with
  | ok n => simp [get_file_size, h, Except.toOption]
  | error e => simp [get_file_size, h, Except.toOption]

end S3Sync
